import Mathlib

/- Verification of the two queue files of the eyotang/container repository.

   Part 1 embeds the lock-free queue (package lock_free_queue): a singly
   linked chain of heap nodes with head/tail cursors and a dummy sentinel
   node.  The heap is a list of nodes indexed by allocation order; the Go
   nil pointer is Option.none.  A single sequential caller's atomic loads
   and CAS operations always observe the state passed in, so each Push
   loop iteration either commits its successor-CAS or retries against the
   unchanged state; pushLoop makes the possibly divergent retry loop
   total with an explicit fuel argument (pushLoop fuel s node = none
   models a loop that has not terminated within fuel iterations). -/

namespace LFQ

structure QNode (T : Type) where
  val : T
  next : Option Nat
deriving DecidableEq

structure LFQState (T : Type) where
  heap : List (QNode T)
  head : Nat
  tail : Nat
deriving DecidableEq

variable {T : Type} [Inhabited T]

/-- Dereference of the node pointer a, as in (*qNode[T])(p). -/
def nodeAt (s : LFQState T) (a : Nat) : QNode T :=
  s.heap.getD a ⟨default, none⟩

/-- NewQueue: head and tail both point at the dummy sentinel node, whose
payload is the zero value of T and whose next pointer is nil. -/
def NewQueue : LFQState T := ⟨[⟨default, none⟩], 0, 0⟩

/-- Pop: load head h, load h.next; if non-nil, CAS head from h to h.next
(always succeeds for the sequential caller) and return the successor's
payload with true; otherwise return the zero value of T with false. -/
def Pop (s : LFQState T) : T × Bool × LFQState T :=
  let rh := nodeAt s s.head
  match rh.next with
  | some n => ((nodeAt s n).val, true, { s with head := n })
  | none => (default, false, s)

/-- Store n into the next field of the node at address a (the committed
effect of a successful CompareAndSwapPointer on that field). -/
def setNext (heap : List (QNode T)) (a : Nat) (n : Option Nat) : List (QNode T) :=
  heap.set a ⟨(heap.getD a ⟨default, none⟩).val, n⟩

/-- Allocation step of Push: qNode[T]{val: val} at a fresh address. -/
def pushAlloc (s : LFQState T) (v : T) : LFQState T × Nat :=
  ({ s with heap := s.heap ++ [⟨v, none⟩] }, s.heap.length)

/-- The retry loop of Push.  Each iteration loads the tail pointer, then
attempts CAS on rt.next from nil to node; on success it stores the new
node into the tail cursor and returns, on failure it continues (the
sequential caller observes the same state again). -/
def pushLoop : Nat → LFQState T → Nat → Option (LFQState T)
  | 0, _, _ => none
  | fuel+1, s, node =>
    match (nodeAt s s.tail).next with
    | none => some { heap := setNext s.heap s.tail (some node), head := s.head, tail := node }
    | some _ => pushLoop fuel s node

/-- Push: allocate the node, then run the CAS retry loop.  Against an
unchanged state the loop's behaviour is fixed after one iteration
(pushLoop_fuel below), so fuel 1 is the exact sequential semantics. -/
def Push (s : LFQState T) (v : T) : Option (LFQState T) :=
  pushLoop 1 (pushAlloc s v).1 (pushAlloc s v).2

/-- The state reached by a producer that committed its successor-CAS but
has not yet executed the tail StorePointer (it is stalled between the
two instructions). -/
def pushCASOnly (s : LFQState T) (v : T) : LFQState T :=
  { (pushAlloc s v).1 with
    heap := setNext (pushAlloc s v).1.heap (pushAlloc s v).1.tail (some (pushAlloc s v).2) }

/-- Sequential reachability invariant: the chain visits the heap in
allocation order, head is at or before tail, tail is the last allocated
node and its next pointer is nil, and every earlier node points at its
allocation successor. -/
def Inv (s : LFQState T) : Prop :=
  s.head ≤ s.tail ∧ s.tail + 1 = s.heap.length ∧
    (∀ i < s.tail, (nodeAt s i).next = some (i + 1)) ∧
    (nodeAt s s.tail).next = none

instance (s : LFQState T) : Decidable (Inv s) :=
  inferInstanceAs (Decidable (_ ∧ _ ∧ _ ∧ _))

/-- Addresses visited by following next pointers from a (excluding a),
bounded by fuel. -/
def chainFrom : Nat → LFQState T → Nat → List Nat
  | 0, _, _ => []
  | fuel+1, s, a =>
    match (nodeAt s a).next with
    | none => []
    | some b => b :: chainFrom fuel s b

/-- The chain of node addresses reachable from head. -/
def chain (s : LFQState T) : List Nat :=
  s.head :: chainFrom s.heap.length s s.head

/-- The logical contents of the queue: the payloads of the nodes strictly
after the sentinel at head, in chain order. -/
def toList (s : LFQState T) : List T :=
  (chainFrom s.heap.length s s.head).map fun a => (nodeAt s a).val

/-- The address interval a+1, ..., a+n as a list. -/
def upChain : Nat → Nat → List Nat
  | _, 0 => []
  | a, n+1 => (a + 1) :: upChain (a + 1) n

/-- The state in which producer A has pushed 1 onto a fresh queue but is
stalled between its successful successor-CAS and its tail StorePointer:
the dummy node already points at A's node, yet tail still points at the
dummy. -/
def stalledProducer : LFQState Nat := pushCASOnly NewQueue 1

end LFQ

/- Part 2: the ring-buffer queue of concurrent/queue/queue.go (package
   queue, type Queue[T comparable]): a growable circular buffer guarded
   by a sync.RWMutex, with bitwise modulus indexing.  Go's
   copy(dst, src), which copies min(len(dst), len(src)) elements into a
   prefix of dst, is modelled by goCopy.  The RWMutex is modelled as a
   counter state threaded through the lock-instrumented variants of the
   operations, which return the lock state as it is at the operation's
   return. -/

namespace RingQ

structure RWLock where
  readers : Nat
  writer : Bool
deriving DecidableEq

def rlock (l : RWLock) : RWLock := { l with readers := l.readers + 1 }

def runlock (l : RWLock) : RWLock := { l with readers := l.readers - 1 }

def wlock (l : RWLock) : RWLock := { l with writer := true }

def wunlock (l : RWLock) : RWLock := { l with writer := false }

structure RQueue (T : Type) where
  buf : List T
  head : Nat
  tail : Nat
  count : Nat
deriving DecidableEq

/-- minQueueLen is the smallest capacity that queue may have. -/
def minQueueLen : Nat := 16

variable {T : Type} [Inhabited T]

/-- NewQueue: a zeroed buffer of minQueueLen elements. -/
def NewQueue : RQueue T := ⟨List.replicate minQueueLen default, 0, 0, 0⟩

/-- Go copy(dst, src): overwrite a prefix of dst with the first
min(len(dst), len(src)) elements of src. -/
def goCopy (dst src : List T) : List T :=
  src.take dst.length ++ dst.drop src.length

/-- resize: allocate a buffer of twice the current element count and copy
the live contents to its front; head becomes 0 and tail becomes count. -/
def resize (q : RQueue T) : RQueue T :=
  let newBuf := List.replicate (q.count <<< 1) (default : T)
  let buf' :=
    if q.tail > q.head then
      goCopy newBuf ((q.buf.drop q.head).take (q.tail - q.head))
    else
      let n := min newBuf.length (q.buf.length - q.head)
      let b1 := goCopy newBuf (q.buf.drop q.head)
      b1.take n ++ goCopy (b1.drop n) (q.buf.take q.tail)
  ⟨buf', 0, q.count, q.count⟩

/-- The store half of Push: write elem at tail, advance tail by bitwise
modulus, increment count. -/
def pushStore (q : RQueue T) (elem : T) : RQueue T :=
  ⟨q.buf.set q.tail elem, q.head, (q.tail + 1) &&& (q.buf.length - 1), q.count + 1⟩

/-- Push: resize when the buffer is full, then store. -/
def Push (q : RQueue T) (elem : T) : RQueue T :=
  if q.count = q.buf.length then pushStore (resize q) elem else pushStore q elem

/-- Pop: on an empty queue return the zero value with false; otherwise
remove the front element, and shrink when the buffer is larger than
minQueueLen and exactly one quarter full after the removal. -/
def Pop (q : RQueue T) : T × Bool × RQueue T :=
  if q.count ≤ 0 then (default, false, q)
  else
    let ret := q.buf.getD q.head default
    let q1 : RQueue T := ⟨q.buf, (q.head + 1) &&& (q.buf.length - 1), q.tail, q.count - 1⟩
    if minQueueLen < q1.buf.length ∧ q1.count <<< 2 = q1.buf.length then (ret, true, resize q1)
    else (ret, true, q1)

/-- The live contents of the ring buffer in FIFO order. -/
def toList (q : RQueue T) : List T :=
  (List.range q.count).map fun i => q.buf.getD ((q.head + i) % q.buf.length) default

/-- The buffer cells visited by Index's scan, in scan order. -/
def scanned (q : RQueue T) : List T :=
  if q.tail > q.head then (q.buf.drop q.head).take (q.tail - q.head)
  else q.buf.drop q.head ++ q.buf.take q.tail

/-- Size with its lock protocol: RLock, read count, RUnlock. -/
def sizeL (q : RQueue T) (l : RWLock) : Nat × RWLock :=
  let l1 := rlock l
  (q.count, runlock l1)

/-- Push with its lock protocol: Lock on entry, Unlock before return. -/
def pushL (q : RQueue T) (elem : T) (l : RWLock) : RQueue T × RWLock :=
  let l1 := wlock l
  (Push q elem, wunlock l1)

/-- Pop with its lock protocol: Lock on entry; both the empty early
return and the normal return Unlock first. -/
def popL (q : RQueue T) (l : RWLock) : (T × Bool × RQueue T) × RWLock :=
  let l1 := wlock l
  (Pop q, wunlock l1)

/-- Peek with its lock protocol: RLock on entry; the empty path RUnlocks
before panicking (result none), the normal path RUnlocks before
returning. -/
def peekL (q : RQueue T) (l : RWLock) : Option T × RWLock :=
  let l1 := rlock l
  if q.count ≤ 0 then (none, runlock l1)
  else (some (q.buf.getD q.head default), runlock l1)

/-- Get with its lock protocol: RLock on entry; the out-of-range path
RUnlocks before panicking (result none), the normal path RUnlocks before
returning. -/
def getL (q : RQueue T) (i : Int) (l : RWLock) : Option T × RWLock :=
  let l1 := rlock l
  let i' := if i < 0 then i + q.count else i
  if i' < 0 ∨ (q.count : Int) ≤ i' then (none, runlock l1)
  else (some (q.buf.getD ((q.head + i'.toNat) &&& (q.buf.length - 1)) default), runlock l1)

/-- Index with its lock protocol, exactly as in the source: RLock on
entry; the empty early return does NOT RUnlock; every other return
RUnlocks first.  The scan returns the offset of the first cell equal to
val, or -1. -/
def indexL [DecidableEq T] (q : RQueue T) (val : T) (l : RWLock) : Int × RWLock :=
  let l1 := rlock l
  if q.count ≤ 0 then (-1, l1)
  else
    match (scanned q).findIdx? fun x => decide (x = val) with
    | some i => ((i : Int), runlock l1)
    | none => (-1, runlock l1)

/-- The implicit structural invariant of C9: buffer length is a power of
two, at least minQueueLen, and count never exceeds it (count is a Nat in
this embedding, so 0 ≤ count holds by construction). -/
def InvR (q : RQueue T) : Prop :=
  (∃ k, q.buf.length = 2 ^ k) ∧ minQueueLen ≤ q.buf.length ∧ q.count ≤ q.buf.length

end RingQ

/- Part 3: the two-stage queue of concurrent/queue/queue.go (package
   queue, type Queue with head/headPos/tail): elements are interface{}
   values, modelled as Option α with none for the nil interface value. -/

namespace TSQ

structure TSQueue (α : Type) where
  head : List (Option α)
  headPos : Nat
  tail : List (Option α)
deriving DecidableEq

/-- len returns the number of items in the queue. -/
def len (q : TSQueue α) : Nat := q.head.length - q.headPos + q.tail.length

/-- PushBack appends w to the tail stage. -/
def PushBack (q : TSQueue α) (w : Option α) : TSQueue α :=
  { q with tail := q.tail ++ [w] }

/-- PopFront: when the head stage is exhausted, either return nil on an
empty tail or swap the stages; then return the front element, clearing
its slot and advancing headPos. -/
def PopFront (q : TSQueue α) : Option α × TSQueue α :=
  if q.headPos ≥ q.head.length then
    if q.tail.length = 0 then (none, q)
    else
      let q1 : TSQueue α := ⟨q.tail, 0, []⟩
      (q1.head.getD q1.headPos none,
        ⟨q1.head.set q1.headPos none, q1.headPos + 1, q1.tail⟩)
  else
    (q.head.getD q.headPos none,
      ⟨q.head.set q.headPos none, q.headPos + 1, q.tail⟩)

/-- PeekFront returns the front element without removing it, or nil. -/
def PeekFront (q : TSQueue α) : Option α :=
  if q.headPos < q.head.length then q.head.getD q.headPos none
  else if q.tail.length > 0 then q.tail.getD 0 none
  else none

/-- The loop body of CleanFront: peek, stop on nil, otherwise pop and
record that something was removed.  The Go loop is unbounded; fuel
len q + 1 always suffices because each PopFront removes one element. -/
def cleanFrontAux : Nat → TSQueue α → Bool → Bool × TSQueue α
  | 0, q, cleaned => (cleaned, q)
  | fuel+1, q, cleaned =>
    match PeekFront q with
    | none => (cleaned, q)
    | some _ => cleanFrontAux fuel (PopFront q).2 true

/-- CleanFront pops elements from the front until PeekFront yields nil,
reporting whether any were popped. -/
def CleanFront (q : TSQueue α) : Bool × TSQueue α :=
  cleanFrontAux (len q + 1) q false

/-- The live elements of the queue: the unconsumed part of the head
stage followed by the tail stage. -/
def live (q : TSQueue α) : List (Option α) := q.head.drop q.headPos ++ q.tail

/-- A queue built by pushing 1, nil, 2 in that order. -/
def nilExample : TSQueue Nat :=
  PushBack (PushBack (PushBack ⟨[], 0, []⟩ (some 1)) none) (some 2)

end TSQ

section ListHelpers

variable {α : Type}

theorem getD_append_lt (l l' : List α) (d : α) (n : Nat) (h : n < l.length) :
    (l ++ l').getD n d = l.getD n d := by
  simp [List.getD_eq_getElem?_getD, List.getElem?_append_left h]

theorem getD_append_len (l : List α) (x d : α) :
    (l ++ [x]).getD l.length d = x := by
  simp [List.getD_eq_getElem?_getD, List.getElem?_append_right (Nat.le_refl l.length)]

theorem getD_set_ne (l : List α) (i n : Nat) (a d : α) (h : i ≠ n) :
    (l.set i a).getD n d = l.getD n d := by
  simp [List.getD_eq_getElem?_getD, List.getElem?_set_ne h]

theorem getD_set_self (l : List α) (i : Nat) (a d : α) (h : i < l.length) :
    (l.set i a).getD i d = a := by
  simp [List.getD_eq_getElem?_getD, List.getElem?_set_self h]

theorem getD_take_lt (l : List α) (n m : Nat) (d : α) (h : m < n) :
    (l.take n).getD m d = l.getD m d := by
  simp [List.getD_eq_getElem?_getD, List.getElem?_take_of_lt h]

theorem getD_drop (l : List α) (n m : Nat) (d : α) :
    (l.drop n).getD m d = l.getD (n + m) d := by
  simp [List.getD_eq_getElem?_getD, List.getElem?_drop]

theorem getD_oob (l : List α) (n : Nat) (d : α) (h : l.length ≤ n) :
    l.getD n d = d := by
  simp [List.getD_eq_getElem?_getD, List.getElem?_eq_none h]

end ListHelpers

namespace LFQ

variable {T : Type} [Inhabited T]

theorem pushLoop_fuel (fuel : Nat) (s : LFQState T) (node : Nat) :
    pushLoop (fuel + 1) s node = pushLoop 1 s node := by
  induction fuel with
  | zero => rfl
  | succ fuel ih =>
    cases h : (nodeAt s s.tail).next with
    | none => simp [pushLoop, h]
    | some b => simpa [pushLoop, h] using ih

theorem pushLoop_stuck (s : LFQState T) (node : Nat)
    (h : (nodeAt s s.tail).next ≠ none) :
    ∀ fuel, pushLoop fuel s node = none := by
  intro fuel
  induction fuel with
  | zero => rfl
  | succ fuel ih =>
    cases hn : (nodeAt s s.tail).next with
    | none => exact absurd hn h
    | some b => simpa [pushLoop, hn] using ih

theorem upChain_eq (a n : Nat) : upChain a (n + 1) = (a + 1) :: upChain (a + 1) n := rfl

theorem upChain_concat : ∀ (n a : Nat), upChain a (n + 1) = upChain a n ++ [a + n + 1] := by
  intro n
  induction n with
  | zero => intro a; rfl
  | succ n ih =>
    intro a
    rw [upChain_eq a (n + 1), ih (a + 1), upChain_eq a n]
    simp only [List.cons_append]
    have h : a + 1 + n + 1 = a + (n + 1) + 1 := by omega
    rw [h]

theorem mem_upChain : ∀ (n a x : Nat), x ∈ upChain a n ↔ a + 1 ≤ x ∧ x ≤ a + n := by
  intro n
  induction n with
  | zero => intro a x; simp [upChain]; omega
  | succ n ih =>
    intro a x
    rw [upChain_eq]
    simp only [List.mem_cons, ih (a + 1)]
    omega

theorem upChain_nodup : ∀ (n a : Nat), (upChain a n).Nodup := by
  intro n
  induction n with
  | zero => intro a; simp [upChain]
  | succ n ih =>
    intro a
    rw [upChain_eq]
    refine List.nodup_cons.mpr ⟨?_, ih (a + 1)⟩
    rw [mem_upChain]
    omega

theorem chainFrom_eq_upChain (s : LFQState T) (hInv : Inv s) :
    ∀ (fuel a : Nat), a ≤ s.tail → s.tail - a ≤ fuel →
      chainFrom fuel s a = upChain a (s.tail - a) := by
  intro fuel
  induction fuel with
  | zero =>
    intro a ha hf
    have h0 : s.tail - a = 0 := Nat.le_zero.mp hf
    rw [h0]
    rfl
  | succ fuel ih =>
    intro a ha hf
    rcases Nat.eq_or_lt_of_le ha with heq | hlt
    · have hnone : (nodeAt s a).next = none := heq ▸ hInv.2.2.2
      have h0 : s.tail - a = 0 := by omega
      rw [h0]
      simp [chainFrom, hnone, upChain]
    · have hsome : (nodeAt s a).next = some (a + 1) := hInv.2.2.1 a hlt
      obtain ⟨k, hk⟩ : ∃ k, s.tail - a = k + 1 := ⟨s.tail - a - 1, by omega⟩
      rw [hk, upChain_eq]
      simp only [chainFrom, hsome]
      rw [ih (a + 1) (by omega) (by omega)]
      have : s.tail - (a + 1) = k := by omega
      rw [this]

theorem toList_eq (s : LFQState T) (hInv : Inv s) :
    toList s = (upChain s.head (s.tail - s.head)).map fun a => (nodeAt s a).val := by
  unfold toList
  rw [chainFrom_eq_upChain s hInv s.heap.length s.head hInv.1
    (by have h2 := hInv.2.1; omega)]

/-- C3: Pop on an empty queue (head's successor nil) is a normal outcome:
it returns the default value of T with found = false and the state
unchanged; and Pop reports found = false exactly when head's successor is
nil at the moment of inspection. -/
theorem lfq_pop_empty_normal : ∀ (s : LFQState T),
    ((nodeAt s s.head).next = none → Pop s = (default, false, s)) ∧
    ((Pop s).2.1 = false ↔ (nodeAt s s.head).next = none) := by
  intro s
  constructor
  · intro h
    simp [Pop, h]
  · cases h : (nodeAt s s.head).next with
    | none => simp [Pop, h]
    | some n => simp [Pop, h]

theorem lfq_pop_empty_normal_witness :
    Pop (NewQueue : LFQState Nat) = (default, false, NewQueue) ∧
      ((Pop (NewQueue : LFQState Nat)).2.1 = false ↔
        (nodeAt (NewQueue : LFQState Nat) (NewQueue : LFQState Nat).head).next = none) :=
  ⟨(lfq_pop_empty_normal (NewQueue : LFQState Nat)).1 rfl,
   (lfq_pop_empty_normal (NewQueue : LFQState Nat)).2⟩

/-- C2: a Pop on a freshly constructed queue returns found = false, and
after exactly one Push and one Pop on a fresh queue a further Pop again
returns found = false. -/
theorem lfq_pop_fresh_and_after_push_pop :
    (Pop (NewQueue : LFQState Nat)).2.1 = false ∧
    (∃ s1 : LFQState Nat, Push NewQueue 7 = some s1 ∧
      (Pop s1).2.1 = true ∧ (Pop (Pop s1).2.2).2.1 = false) := by
  refine ⟨by decide, ⟨⟨[⟨0, some 1⟩, ⟨7, none⟩], 0, 1⟩, by decide, by decide, by decide⟩⟩

end LFQ

namespace LFQ

variable {T : Type} [Inhabited T]

theorem Inv_tail_lt (s : LFQState T) (hInv : Inv s) : s.tail < s.heap.length := by
  have h := hInv.2.1
  omega

/-- The committed effect of a sequential Push whose CAS succeeds at once
(which is always the case when the tail node's next pointer is nil). -/
theorem Push_eq (s : LFQState T) (v : T)
    (htl : s.tail < s.heap.length) (h : (nodeAt s s.tail).next = none) :
    Push s v = some ⟨setNext (s.heap ++ [⟨v, none⟩]) s.tail (some s.heap.length),
      s.head, s.heap.length⟩ := by
  have hA : (nodeAt { s with heap := s.heap ++ [⟨v, none⟩] } s.tail).next = none := by
    unfold nodeAt at h ⊢
    rwa [getD_append_lt _ _ _ _ htl]
  unfold Push pushAlloc pushLoop
  simp only [hA]

theorem Inv_push (s s' : LFQState T) (v : T) (hInv : Inv s)
    (hp : Push s v = some s') : Inv s' := by
  have htl : s.tail < s.heap.length := Inv_tail_lt s hInv
  have hht : s.head ≤ s.tail := hInv.1
  have hlen0 : s.tail + 1 = s.heap.length := hInv.2.1
  rw [Push_eq s v htl hInv.2.2.2] at hp
  have hs' := (Option.some.inj hp).symm
  subst hs'
  have hlen : (setNext (s.heap ++ [⟨v, none⟩]) s.tail (some s.heap.length)).length
      = s.heap.length + 1 := by
    simp [setNext]
  have hnode : ∀ j, nodeAt (⟨setNext (s.heap ++ [⟨v, none⟩]) s.tail (some s.heap.length),
      s.head, s.heap.length⟩ : LFQState T) j
      = (setNext (s.heap ++ [⟨v, none⟩]) s.tail (some s.heap.length)).getD j ⟨default, none⟩ :=
    fun j => rfl
  refine ⟨?_, ?_, ?_, ?_⟩
  · show s.head ≤ s.heap.length
    omega
  · show s.heap.length + 1
      = (setNext (s.heap ++ [⟨v, none⟩]) s.tail (some s.heap.length)).length
    omega
  · intro i hi
    have hi' : i < s.heap.length := hi
    rw [hnode i]
    unfold setNext
    rcases Nat.lt_or_ge i s.tail with hit | hit
    · rw [getD_set_ne _ _ _ _ _ (by omega), getD_append_lt _ _ _ _ hi']
      exact hInv.2.2.1 i hit
    · have hie : i = s.tail := by omega
      subst hie
      rw [getD_set_self _ _ _ _ (by simp; omega)]
      show some s.heap.length = some (s.tail + 1)
      rw [show s.heap.length = s.tail + 1 by omega]
  · show (nodeAt (⟨setNext (s.heap ++ [⟨v, none⟩]) s.tail (some s.heap.length),
      s.head, s.heap.length⟩ : LFQState T) s.heap.length).next = none
    rw [hnode]
    unfold setNext
    rw [getD_set_ne _ _ _ _ _ (by omega), getD_append_len]

theorem Inv_newQueue : Inv (NewQueue : LFQState T) := by
  refine ⟨Nat.le.refl, rfl, ?_, rfl⟩
  intro i hi
  have hi' : i < 0 := hi
  omega

theorem Inv_pop (s : LFQState T) (hInv : Inv s) : Inv (Pop s).2.2 := by
  cases hn : (nodeAt s s.head).next with
  | none => simpa [Pop, hn] using hInv
  | some n =>
    have hht : s.head < s.tail := by
      rcases Nat.eq_or_lt_of_le hInv.1 with he | hl
      · rw [he] at hn
        rw [hInv.2.2.2] at hn
        exact absurd hn (by simp)
      · exact hl
    have hnv : n = s.head + 1 := by
      have h2 := hInv.2.2.1 s.head hht
      rw [hn] at h2
      exact Option.some.inj h2
    subst hnv
    have h1 : (Pop s).2.2 = { s with head := s.head + 1 } := by
      simp [Pop, hn]
    rw [h1]
    refine ⟨?_, ?_, ?_, ?_⟩
    · show s.head + 1 ≤ s.tail
      omega
    · exact hInv.2.1
    · intro i hi
      have hi' : i < s.tail := hi
      exact hInv.2.2.1 i hi'
    · exact hInv.2.2.2

/-- Payloads of already-allocated nodes are unchanged by a Push. -/
theorem push_val_frozen (s s' : LFQState T) (v : T) (hInv : Inv s)
    (hp : Push s v = some s') (a : Nat) (ha : a < s.heap.length) :
    (nodeAt s' a).val = (nodeAt s a).val := by
  have htl : s.tail < s.heap.length := Inv_tail_lt s hInv
  rw [Push_eq s v htl hInv.2.2.2] at hp
  have hs' := (Option.some.inj hp).symm
  subst hs'
  rcases Nat.decEq a s.tail with hne | heq
  · unfold nodeAt setNext
    rw [getD_set_ne _ _ _ _ _ (fun h => hne h.symm), getD_append_lt _ _ _ _ ha]
  · subst heq
    unfold nodeAt setNext
    rw [getD_set_self _ _ _ _ (by simp; omega), getD_append_lt _ _ _ _ ha]

theorem toList_push (s s' : LFQState T) (v : T) (hInv : Inv s)
    (hp : Push s v = some s') : toList s' = toList s ++ [v] := by
  have hInv' : Inv s' := Inv_push s s' v hInv hp
  have htl : s.tail < s.heap.length := Inv_tail_lt s hInv
  have hfields : s'.head = s.head ∧ s'.tail = s.heap.length := by
    rw [Push_eq s v htl hInv.2.2.2] at hp
    have hs' := (Option.some.inj hp).symm
    subst hs'
    exact ⟨rfl, rfl⟩
  rw [toList_eq s hInv, toList_eq s' hInv']
  rw [hfields.1, hfields.2]
  have hd : s.heap.length - s.head = (s.tail - s.head) + 1 := by
    have := hInv.2.1
    have := hInv.1
    omega
  rw [hd, upChain_concat]
  rw [List.map_append]
  have hlast : s.head + (s.tail - s.head) + 1 = s.heap.length := by
    have := hInv.2.1
    have := hInv.1
    omega
  congr 1
  · apply List.map_congr_left
    intro a ha
    rw [mem_upChain] at ha
    exact push_val_frozen s s' v hInv hp a (by omega)
  · rw [hlast]
    have : (nodeAt s' s.heap.length).val = v := by
      rw [Push_eq s v htl hInv.2.2.2] at hp
      have hs' := (Option.some.inj hp).symm
      subst hs'
      unfold nodeAt setNext
      rw [getD_set_ne _ _ _ _ _ (by omega), getD_append_len]
    simp only [List.map_cons, List.map_nil]
    rw [this]

/-- C1: pushing 1, 2, 3 onto a fresh queue and popping three times yields
1, 2, 3 in order, each with found = true; and in general, under the
sequential reachability invariant, a Push appends its value after all
elements already in the chain. -/
theorem lfq_fifo_and_push_append :
    (∃ s1 s2 s3 : LFQState Nat,
      Push NewQueue 1 = some s1 ∧ Push s1 2 = some s2 ∧ Push s2 3 = some s3 ∧
      (Pop s3).1 = 1 ∧ (Pop s3).2.1 = true ∧
      (Pop (Pop s3).2.2).1 = 2 ∧ (Pop (Pop s3).2.2).2.1 = true ∧
      (Pop (Pop (Pop s3).2.2).2.2).1 = 3 ∧ (Pop (Pop (Pop s3).2.2).2.2).2.1 = true) ∧
    (∀ (T : Type) [Inhabited T] (s s' : LFQState T) (v : T),
      Inv s → Push s v = some s' → toList s' = toList s ++ [v]) := by
  constructor
  · exact ⟨⟨[⟨0, some 1⟩, ⟨1, none⟩], 0, 1⟩,
      ⟨[⟨0, some 1⟩, ⟨1, some 2⟩, ⟨2, none⟩], 0, 2⟩,
      ⟨[⟨0, some 1⟩, ⟨1, some 2⟩, ⟨2, some 3⟩, ⟨3, none⟩], 0, 3⟩,
      by decide, by decide, by decide, by decide, by decide,
      by decide, by decide, by decide, by decide⟩
  · intro T _ s s' v hInv hp
    exact toList_push s s' v hInv hp

theorem lfq_fifo_and_push_append_witness :
    toList (⟨[⟨0, some 1⟩, ⟨5, none⟩], 0, 1⟩ : LFQState Nat)
      = toList (NewQueue : LFQState Nat) ++ [5] :=
  lfq_fifo_and_push_append.2 Nat NewQueue ⟨[⟨0, some 1⟩, ⟨5, none⟩], 0, 1⟩ 5
    (by decide) (by decide)

/-- C4: the structural invariant (head is a valid node, the queue is
empty exactly when head's successor is nil, tail is reachable from head
along next pointers, and the chain is acyclic) holds for NewQueue and is
preserved by every sequential Push and Pop. -/
theorem lfq_structural_invariant :
    Inv (NewQueue : LFQState T) ∧
    (∀ s : LFQState T, Inv s → Inv (Pop s).2.2) ∧
    (∀ (s s' : LFQState T) (v : T), Inv s → Push s v = some s' → Inv s') ∧
    (∀ s : LFQState T, Inv s →
      s.head < s.heap.length ∧ s.tail ∈ chain s ∧ (chain s).Nodup ∧
        (toList s = [] ↔ (nodeAt s s.head).next = none)) := by
  refine ⟨Inv_newQueue, Inv_pop, fun s s' v h hp => Inv_push s s' v h hp, ?_⟩
  intro s hInv
  have hchain : chain s = s.head :: upChain s.head (s.tail - s.head) := by
    unfold chain
    rw [chainFrom_eq_upChain s hInv s.heap.length s.head hInv.1
      (by have := hInv.2.1; omega)]
  refine ⟨by have := hInv.2.1; have := hInv.1; omega, ?_, ?_, ?_⟩
  · rw [hchain]
    rcases Nat.eq_or_lt_of_le hInv.1 with he | hl
    · rw [he]
      exact List.mem_cons_self _ _
    · refine List.mem_cons_of_mem _ ?_
      rw [mem_upChain]
      omega
  · rw [hchain]
    refine List.nodup_cons.mpr ⟨?_, upChain_nodup _ _⟩
    rw [mem_upChain]
    omega
  · rw [toList_eq s hInv]
    rcases Nat.eq_or_lt_of_le hInv.1 with he | hl
    · rw [he] at *
      simp [Nat.sub_self, upChain, hInv.2.2.2]
    · have hsome := hInv.2.2.1 s.head hl
      obtain ⟨k, hk⟩ : ∃ k, s.tail - s.head = k + 1 := ⟨s.tail - s.head - 1, by omega⟩
      rw [hk, upChain_eq, hsome]
      simp

theorem lfq_structural_invariant_witness :
    Inv (Pop (NewQueue : LFQState Nat)).2.2 :=
  lfq_structural_invariant.2.1 (NewQueue : LFQState Nat) (by decide)

/-- C5: the push algorithm allocates one fresh node carrying the value
with nil successor, then loops: it reads the current tail t and attempts
a CAS on t's successor from nil to the new node; on success it stores
the new node into the tail cursor and returns; on failure it re-reads
tail (the next iteration starts again from the state) and repeats. -/
theorem lfq_push_algorithm :
    (∀ (s : LFQState T) (v : T),
      (pushAlloc s v).2 = s.heap.length ∧
      nodeAt (pushAlloc s v).1 (pushAlloc s v).2 = ⟨v, none⟩ ∧
      (pushAlloc s v).1.heap.length = s.heap.length + 1 ∧
      Push s v = pushLoop 1 (pushAlloc s v).1 (pushAlloc s v).2) ∧
    (∀ (s : LFQState T) (node fuel : Nat), (nodeAt s s.tail).next = none →
      pushLoop (fuel + 1) s node
        = some ⟨setNext s.heap s.tail (some node), s.head, node⟩) ∧
    (∀ (s : LFQState T) (node fuel : Nat), (nodeAt s s.tail).next ≠ none →
      pushLoop (fuel + 1) s node = pushLoop fuel s node) := by
  refine ⟨?_, ?_, ?_⟩
  · intro s v
    refine ⟨rfl, ?_, by simp [pushAlloc], rfl⟩
    unfold pushAlloc nodeAt
    simp only
    rw [getD_append_len]
  · intro s node fuel h
    simp [pushLoop, h]
  · intro s node fuel h
    cases hn : (nodeAt s s.tail).next with
    | none => exact absurd hn h
    | some b => simp [pushLoop, hn]

theorem lfq_push_algorithm_witness :
    pushLoop 1 (NewQueue : LFQState Nat) 1
      = some ⟨setNext (NewQueue : LFQState Nat).heap 0 (some 1), 0, 1⟩ :=
  lfq_push_algorithm.2.1 (NewQueue : LFQState Nat) 1 0 rfl

/-- C6: the code is not lock-free in the claimed sense.  After producer A
commits its successor-CAS but stalls before its tail StorePointer
(stalledProducer), producer B's push loop fails its CAS against the
stale tail and retries forever: no number of loop iterations lets B
complete, and B's Push diverges (evaluates to none for every fuel).
The source itself flags this: a comment next to the StorePointer says to
use CompareAndSwapPointer instead if a dead loop occurs. -/
theorem lfq_tail_store_livelock :
    (∀ fuel : Nat, pushLoop fuel (pushAlloc stalledProducer 2).1
      (pushAlloc stalledProducer 2).2 = none) ∧
    Push stalledProducer 2 = none := by
  constructor
  · intro fuel
    exact pushLoop_stuck _ _ (by decide) fuel
  · decide

end LFQ

namespace TSQ

variable {α : Type}

theorem drop_set_succ (l : List (Option α)) (i : Nat) (a : Option α) :
    (l.set i a).drop (i + 1) = l.drop (i + 1) := by
  apply List.ext_getElem?
  intro n
  rw [List.getElem?_drop, List.getElem?_drop, List.getElem?_set_ne (by omega)]

theorem len_popFront (q : TSQueue α) (h : PeekFront q ≠ none) :
    len (PopFront q).2 + 1 = len q := by
  unfold PeekFront at h
  unfold PopFront len
  rcases Nat.lt_or_ge q.headPos q.head.length with hlt | hge
  · rw [if_neg (by omega)]
    dsimp only
    simp only [List.length_set]
    omega
  · have ht : q.tail.length ≠ 0 := by
      intro h0
      rw [if_neg (by omega), if_neg (by omega)] at h
      exact h rfl
    rw [if_pos (by omega), if_neg ht]
    dsimp only
    simp only [List.length_set, List.length_nil]
    omega

theorem live_popFront (q : TSQueue α) : ∀ x ∈ live (PopFront q).2, x ∈ live q := by
  intro x hx
  unfold live at hx ⊢
  unfold PopFront at hx
  rcases Nat.lt_or_ge q.headPos q.head.length with hlt | hge
  · rw [if_neg (by omega)] at hx
    dsimp only at hx
    rw [drop_set_succ] at hx
    rcases List.mem_append.mp hx with h1 | h1
    · exact List.mem_append_left _ (List.drop_subset_drop_left _ (by omega) h1)
    · exact List.mem_append_right _ h1
  · rw [if_pos (by omega)] at hx
    by_cases ht : q.tail.length = 0
    · rw [if_pos ht] at hx
      exact hx
    · rw [if_neg ht] at hx
      dsimp only at hx
      rw [drop_set_succ] at hx
      rcases List.mem_append.mp hx with h1 | h1
      · exact List.mem_append_right _ (List.drop_subset _ _ h1)
      · exact absurd h1 (List.not_mem_nil x)

theorem peek_none_len (q : TSQueue α) (hnn : ∀ x ∈ live q, x ≠ none)
    (hpk : PeekFront q = none) : len q = 0 := by
  unfold PeekFront at hpk
  rcases Nat.lt_or_ge q.headPos q.head.length with hlt | hge
  · rw [if_pos hlt] at hpk
    exfalso
    have h2 : (q.head.drop q.headPos)[0]? = some (q.head.getD q.headPos none) := by
      rw [List.getElem?_drop, List.getD_eq_getElem?_getD,
        List.getElem?_eq_getElem (show q.headPos + 0 < q.head.length by omega),
        List.getElem?_eq_getElem hlt]
      simp
    have h1 : q.head.getD q.headPos none ∈ live q :=
      List.mem_append_left _ (List.getElem?_mem h2)
    exact (hnn _ h1) hpk
  · rw [if_neg (by omega)] at hpk
    by_cases ht : q.tail.length = 0
    · unfold len
      omega
    · rw [if_pos (by omega)] at hpk
      exfalso
      have h2 : q.tail[0]? = some (q.tail.getD 0 none) := by
        rw [List.getD_eq_getElem?_getD, List.getElem?_eq_getElem (by omega : 0 < q.tail.length)]
        simp
      have h1 : q.tail.getD 0 none ∈ live q :=
        List.mem_append_right _ (List.getElem?_mem h2)
      exact (hnn _ h1) hpk

theorem cleanFrontAux_true (fuel : Nat) : ∀ q : TSQueue α,
    (cleanFrontAux fuel q true).1 = true := by
  induction fuel with
  | zero => intro q; rfl
  | succ fuel ih =>
    intro q
    cases hpk : PeekFront q with
    | none => simp [cleanFrontAux, hpk]
    | some w => simpa [cleanFrontAux, hpk] using ih (PopFront q).2

theorem cleanFrontAux_empty (fuel : Nat) : ∀ (q : TSQueue α) (c : Bool), len q < fuel →
    (∀ x ∈ live q, x ≠ none) → len (cleanFrontAux fuel q c).2 = 0 := by
  induction fuel with
  | zero =>
    intro q c hf hnn
    exact absurd hf (Nat.not_lt_zero _)
  | succ fuel ih =>
    intro q c hf hnn
    cases hpk : PeekFront q with
    | none =>
      simp only [cleanFrontAux, hpk]
      exact peek_none_len q hnn hpk
    | some w =>
      have hne : PeekFront q ≠ none := by simp [hpk]
      have hlen := len_popFront q hne
      simp only [cleanFrontAux, hpk]
      exact ih (PopFront q).2 true (by omega) (fun x hx => hnn x (live_popFront q x hx))

/-- C10: PopFront and PeekFront return nil on an empty queue (PopFront
leaving it unchanged); CleanFront reports true exactly when the front
element is non-nil, i.e. when at least one element gets removed; if no
live element is nil the queue is empty once CleanFront returns; and a
pushed nil element stops CleanFront early: after pushing 1, nil, 2, a
CleanFront removes only the 1, reports true, and leaves a queue of
length 2 that PeekFront already treats as empty. -/
theorem tsq_front_nil_semantics :
    (∀ (α : Type) (q : TSQueue α), len q = 0 →
      PeekFront q = none ∧ PopFront q = (none, q)) ∧
    (∀ (α : Type) (q : TSQueue α), (CleanFront q).1 = true ↔ PeekFront q ≠ none) ∧
    (∀ (α : Type) (q : TSQueue α),
      (∀ x ∈ live q, x ≠ none) → len (CleanFront q).2 = 0) ∧
    (len nilExample = 3 ∧ (CleanFront nilExample).1 = true ∧
      len (CleanFront nilExample).2 = 2 ∧ PeekFront (CleanFront nilExample).2 = none) := by
  refine ⟨?_, ?_, ?_, by decide⟩
  · intro α q h
    have h1 : q.head.length ≤ q.headPos := by
      unfold len at h
      omega
    have h2 : q.tail.length = 0 := by
      unfold len at h
      omega
    constructor
    · unfold PeekFront
      rw [if_neg (by omega), if_neg (by omega)]
    · unfold PopFront
      rw [if_pos (by omega), if_pos h2]
  · intro α q
    constructor
    · intro h hpk
      unfold CleanFront at h
      simp [cleanFrontAux, hpk] at h
    · intro h
      cases hpk : PeekFront q with
      | none => exact absurd hpk h
      | some w =>
        unfold CleanFront
        simp only [cleanFrontAux, hpk]
        exact cleanFrontAux_true _ _
  · intro α q hnn
    exact cleanFrontAux_empty (len q + 1) q false (by omega) hnn

theorem tsq_front_nil_semantics_witness :
    PeekFront (⟨[], 0, []⟩ : TSQueue Nat) = none ∧
      len (CleanFront (⟨[], 0, [some 5]⟩ : TSQueue Nat)).2 = 0 :=
  ⟨(tsq_front_nil_semantics.1 Nat ⟨[], 0, []⟩ rfl).1,
   tsq_front_nil_semantics.2.2.1 Nat ⟨[], 0, [some 5]⟩ (by decide)⟩

end TSQ

namespace RingQ

variable {T : Type} [Inhabited T]

theorem getD_append_right (l l' : List T) (d : T) (n : Nat) (h : l.length ≤ n) :
    (l ++ l').getD n d = l'.getD (n - l.length) d := by
  simp [List.getD_eq_getElem?_getD, List.getElem?_append_right h]

theorem shl1 (n : Nat) : n <<< 1 = 2 * n := by
  rw [Nat.shiftLeft_eq, pow_one]
  omega

theorem shl2 (n : Nat) : n <<< 2 = 4 * n := by
  rw [Nat.shiftLeft_eq, show (2 : Nat) ^ 2 = 4 from by norm_num]
  omega

theorem length_goCopy (dst src : List T) : (goCopy dst src).length = dst.length := by
  simp [goCopy]
  omega

theorem getD_goCopy_lt (dst src : List T) (d : T) (i : Nat)
    (h : i < min dst.length src.length) :
    (goCopy dst src).getD i d = src.getD i d := by
  unfold goCopy
  rw [getD_append_lt _ _ _ _ (by simp; omega)]
  exact getD_take_lt _ _ _ _ (by omega)

theorem getD_goCopy_ge (dst src : List T) (d : T) (i : Nat)
    (h : min dst.length src.length ≤ i) :
    (goCopy dst src).getD i d = dst.getD i d := by
  unfold goCopy
  rcases le_or_lt src.length dst.length with hsd | hsd
  · have hm : (src.take dst.length).length = src.length := by
      simp
      omega
    rw [getD_append_right _ _ _ _ (by simp; omega), hm, getD_drop,
      show src.length + (i - src.length) = i from by omega]
  · rw [getD_append_right _ _ _ _ (by simp; omega),
      getD_oob _ _ _ (by simp; omega), getD_oob _ _ _ (by omega)]

theorem resize_head (q : RQueue T) : (resize q).head = 0 := rfl

theorem resize_count (q : RQueue T) : (resize q).count = q.count := rfl

theorem resize_buf_pos (q : RQueue T) (h : q.tail > q.head) :
    (resize q).buf = goCopy (List.replicate (q.count <<< 1) default)
      ((q.buf.drop q.head).take (q.tail - q.head)) := by
  unfold resize
  dsimp only
  rw [if_pos h]

theorem resize_buf_neg (q : RQueue T) (h : ¬ q.tail > q.head) :
    (resize q).buf =
      (goCopy (List.replicate (q.count <<< 1) default) (q.buf.drop q.head)).take
          (min (q.count <<< 1) (q.buf.length - q.head)) ++
        goCopy ((goCopy (List.replicate (q.count <<< 1) default) (q.buf.drop q.head)).drop
          (min (q.count <<< 1) (q.buf.length - q.head))) (q.buf.take q.tail) := by
  unfold resize
  dsimp only
  rw [if_neg h]
  simp only [List.length_replicate]

theorem length_resize (q : RQueue T) : (resize q).buf.length = q.count <<< 1 := by
  by_cases h : q.tail > q.head
  · rw [resize_buf_pos q h, length_goCopy]
    simp
  · rw [resize_buf_neg q h]
    simp only [List.length_append, List.length_take, List.length_drop, length_goCopy,
      List.length_replicate]
    omega

theorem toList_resize (q : RQueue T) (hh : q.head < q.buf.length)
    (ht : q.tail = (q.head + q.count) % q.buf.length) (hc : q.count ≤ q.buf.length) :
    toList (resize q) = toList q := by
  unfold toList
  simp only [resize_count, resize_head, Nat.zero_add]
  apply List.map_congr_left
  intro i hi
  rw [List.mem_range] at hi
  have hc0 : 0 < q.count := by omega
  have hlen0 : 0 < q.buf.length := by omega
  have htl : q.tail < q.buf.length := by
    rw [ht]
    exact Nat.mod_lt _ hlen0
  rw [length_resize, shl1, Nat.mod_eq_of_lt (by omega)]
  by_cases htgt : q.tail > q.head
  · have htt : q.tail = q.head + q.count := by
      rcases Nat.lt_or_ge (q.head + q.count) q.buf.length with hlt | hge
      · rw [Nat.mod_eq_of_lt hlt] at ht
        exact ht
      · exfalso
        rw [Nat.mod_eq_sub_mod hge, Nat.mod_eq_of_lt (by omega)] at ht
        omega
    rw [resize_buf_pos q htgt]
    rw [getD_goCopy_lt _ _ _ _ (by simp [shl1]; omega)]
    rw [getD_take_lt _ _ _ _ (by omega), getD_drop]
    rw [Nat.mod_eq_of_lt (by omega)]
  · have hwrap : q.buf.length ≤ q.head + q.count := by
      rcases Nat.lt_or_ge (q.head + q.count) q.buf.length with hlt | hge
      · exfalso
        rw [Nat.mod_eq_of_lt hlt] at ht
        omega
      · exact hge
    have htt : q.tail = q.head + q.count - q.buf.length := by
      rw [Nat.mod_eq_sub_mod hwrap, Nat.mod_eq_of_lt (by omega)] at ht
      exact ht
    rw [resize_buf_neg q htgt]
    have hn : min (q.count <<< 1) (q.buf.length - q.head) = q.buf.length - q.head := by
      rw [shl1]
      omega
    rw [hn]
    by_cases hin : i < q.buf.length - q.head
    · rw [getD_append_lt _ _ _ _ (by simp [length_goCopy, shl1]; omega)]
      rw [getD_take_lt _ _ _ _ hin]
      rw [getD_goCopy_lt _ _ _ _ (by simp [shl1]; omega)]
      rw [getD_drop]
      rw [Nat.mod_eq_of_lt (by omega)]
    · rw [getD_append_right _ _ _ _ (by simp [length_goCopy, shl1]; omega)]
      have hmin2 : (((goCopy (List.replicate (q.count <<< 1) default)
          (q.buf.drop q.head)).take (q.buf.length - q.head)).length)
          = q.buf.length - q.head := by
        simp [length_goCopy, shl1]
        omega
      rw [hmin2]
      rw [getD_goCopy_lt _ _ _ _ (by simp [length_goCopy, shl1]; omega)]
      rw [getD_take_lt _ _ _ _ (by omega)]
      rw [Nat.mod_eq_sub_mod (by omega), Nat.mod_eq_of_lt (by omega)]
      rw [show q.head + i - q.buf.length = i - (q.buf.length - q.head) from by omega]

theorem pushStore_buf_length (p : RQueue T) (e : T) :
    (pushStore p e).buf.length = p.buf.length := by
  simp [pushStore]

theorem pushStore_count (p : RQueue T) (e : T) :
    (pushStore p e).count = p.count + 1 := rfl

/-- C7: Push on a full buffer (count = len(buf)) resizes to exactly twice
the current element count before storing; Pop, when the buffer is larger
than minQueueLen and exactly one quarter full after the removal, resizes
it to twice the remaining count, i.e. half the old capacity; and resize
preserves the elements and their FIFO order. -/
theorem ringq_resize_doubling :
    (∀ (q : RQueue T) (e : T), q.count = q.buf.length →
      Push q e = pushStore (resize q) e ∧ (resize q).buf.length = 2 * q.count) ∧
    (∀ q : RQueue T, 0 < q.count → minQueueLen < q.buf.length →
      (q.count - 1) <<< 2 = q.buf.length →
      (Pop q).2.2 = resize ⟨q.buf, (q.head + 1) &&& (q.buf.length - 1), q.tail, q.count - 1⟩ ∧
      (Pop q).2.2.buf.length = 2 * (q.count - 1) ∧
      2 * (Pop q).2.2.buf.length = q.buf.length) ∧
    (∀ q : RQueue T, q.head < q.buf.length → q.tail = (q.head + q.count) % q.buf.length →
      q.count ≤ q.buf.length → toList (resize q) = toList q) := by
  refine ⟨?_, ?_, ?_⟩
  · intro q e h
    constructor
    · unfold Push
      rw [if_pos h]
    · rw [length_resize, shl1]
  · intro q h0 h16 hq
    have hp : (Pop q).2.2
        = resize ⟨q.buf, (q.head + 1) &&& (q.buf.length - 1), q.tail, q.count - 1⟩ := by
      unfold Pop
      rw [if_neg (by omega)]
      dsimp only
      rw [if_pos ⟨h16, hq⟩]
    refine ⟨hp, ?_, ?_⟩
    · rw [hp, length_resize, shl1]
    · rw [hp, length_resize, shl1]
      have h4 := shl2 (q.count - 1)
      show 2 * (2 * (q.count - 1)) = q.buf.length
      omega
  · intro q hh ht hcnt
    exact toList_resize q hh ht hcnt

theorem ringq_resize_doubling_witness :
    toList (resize (NewQueue : RQueue Nat)) = toList (NewQueue : RQueue Nat) :=
  ringq_resize_doubling.2.2 NewQueue (by decide) (by decide) (by decide)

/-- C9: starting from NewQueue, every Push and Pop preserves the implicit
invariant that the buffer length is a power of two and at least
minQueueLen and that count never exceeds it (count is a Nat here, so
0 <= count is automatic), and under that invariant the bitwise index
computation x &&& (len(buf) - 1) agrees with x % len(buf). -/
theorem ringq_pow2_invariant :
    InvR (NewQueue : RQueue T) ∧
    (∀ (q : RQueue T) (e : T), InvR q → InvR (Push q e)) ∧
    (∀ q : RQueue T, InvR q → InvR (Pop q).2.2) ∧
    (∀ (q : RQueue T) (x : Nat), InvR q → x &&& (q.buf.length - 1) = x % q.buf.length) := by
  have hmq : minQueueLen = 16 := rfl
  refine ⟨?_, ?_, ?_, ?_⟩
  · refine ⟨⟨4, ?_⟩, ?_, ?_⟩
    · show (List.replicate minQueueLen (default : T)).length = 2 ^ 4
      rw [List.length_replicate]
      norm_num [hmq]
    · show minQueueLen ≤ (List.replicate minQueueLen (default : T)).length
      rw [List.length_replicate]
    · show 0 ≤ (List.replicate minQueueLen (default : T)).length
      omega
  · intro q e h
    obtain ⟨⟨k, hk⟩, h16, hcnt⟩ := h
    unfold Push
    by_cases hf : q.count = q.buf.length
    · rw [if_pos hf]
      refine ⟨⟨k + 1, ?_⟩, ?_, ?_⟩
      · rw [pushStore_buf_length, length_resize, shl1, hf, hk, Nat.pow_succ]
        omega
      · rw [pushStore_buf_length, length_resize, shl1]
        omega
      · rw [pushStore_count, resize_count, pushStore_buf_length, length_resize, shl1]
        omega
    · rw [if_neg hf]
      refine ⟨⟨k, by rw [pushStore_buf_length, hk]⟩, by rw [pushStore_buf_length]; omega, ?_⟩
      rw [pushStore_count, pushStore_buf_length]
      omega
  · intro q h
    obtain ⟨⟨k, hk⟩, h16, hcnt⟩ := h
    unfold Pop
    by_cases h0 : q.count ≤ 0
    · rw [if_pos h0]
      exact ⟨⟨k, hk⟩, h16, hcnt⟩
    · rw [if_neg h0]
      dsimp only
      by_cases hcond : minQueueLen < q.buf.length ∧ (q.count - 1) <<< 2 = q.buf.length
      · rw [if_pos hcond]
        obtain ⟨hgt, heq⟩ := hcond
        have hk5 : 4 < k := by
          by_contra hcon
          push_neg at hcon
          have hle : (2 : Nat) ^ k ≤ 2 ^ 4 := Nat.pow_le_pow_right (by omega) hcon
          have h24 : (2 : Nat) ^ 4 = 16 := by norm_num
          rw [hk] at hgt
          omega
        obtain ⟨m, hm⟩ : ∃ m, k = m + 2 := ⟨k - 2, by omega⟩
        subst hm
        have h4 : (2 : Nat) ^ (m + 2) = 4 * 2 ^ m := by ring
        have h5 : (2 : Nat) ^ (m + 1) = 2 * 2 ^ m := by ring
        have h42 := shl2 (q.count - 1)
        rw [hk] at heq
        have hc1 : q.count - 1 = 2 ^ m := by omega
        refine ⟨⟨m + 1, ?_⟩, ?_, ?_⟩
        · rw [length_resize, shl1]
          show 2 * (q.count - 1) = 2 ^ (m + 1)
          omega
        · rw [length_resize, shl1]
          show minQueueLen ≤ 2 * (q.count - 1)
          have h162 : (2 : Nat) ^ 4 ≤ 2 ^ (m + 1) := Nat.pow_le_pow_right (by omega) (by omega)
          have h24 : (2 : Nat) ^ 4 = 16 := by norm_num
          omega
        · rw [resize_count, length_resize, shl1]
          show q.count - 1 ≤ 2 * (q.count - 1)
          omega
      · rw [if_neg hcond]
        refine ⟨⟨k, hk⟩, h16, ?_⟩
        show q.count - 1 ≤ q.buf.length
        omega
  · intro q x h
    obtain ⟨⟨k, hk⟩, h16, hcnt⟩ := h
    rw [hk]
    exact Nat.and_pow_two_sub_one_eq_mod x k

theorem ringq_pow2_invariant_witness :
    (37 : Nat) &&& ((NewQueue : RQueue Nat).buf.length - 1)
      = 37 % (NewQueue : RQueue Nat).buf.length :=
  ringq_pow2_invariant.2.2.2 (NewQueue : RQueue Nat) 37 ⟨⟨4, by decide⟩, by decide, by decide⟩

/-- C8: the lock protocol is violated by Index alone.  On an empty queue
Index takes the read lock and returns -1 without releasing it (the
returned lock state still has one reader), while Size, Push, Pop, Peek,
Get (both its panic path and its normal path) and Index on a non-empty
queue all restore the lock state they were called with. -/
theorem ringq_index_missing_unlock :
    (indexL (NewQueue : RQueue Nat) 0 ⟨0, false⟩).1 = -1 ∧
    (indexL (NewQueue : RQueue Nat) 0 ⟨0, false⟩).2 = ⟨1, false⟩ ∧
    (sizeL (NewQueue : RQueue Nat) ⟨0, false⟩).2 = ⟨0, false⟩ ∧
    (pushL (NewQueue : RQueue Nat) 5 ⟨0, false⟩).2 = ⟨0, false⟩ ∧
    (popL (NewQueue : RQueue Nat) ⟨0, false⟩).2 = ⟨0, false⟩ ∧
    (peekL (NewQueue : RQueue Nat) ⟨0, false⟩).2 = ⟨0, false⟩ ∧
    (getL (NewQueue : RQueue Nat) 0 ⟨0, false⟩).2 = ⟨0, false⟩ ∧
    (getL (NewQueue : RQueue Nat) (-3) ⟨0, false⟩).2 = ⟨0, false⟩ ∧
    (indexL (Push (NewQueue : RQueue Nat) 5) 5 ⟨0, false⟩).1 = 0 ∧
    (indexL (Push (NewQueue : RQueue Nat) 5) 5 ⟨0, false⟩).2 = ⟨0, false⟩ := by
  decide

end RingQ
